import Mathlib

/-!
# Verification of the series / minting core of the photography-NFT contract

Shallow embedding of `src/nft-contract/src/series.rs`: the three public
operations `create_series`, `nft_mint` and `update_mint_id` of the contract,
together with the persistent collections they touch, are modelled as pure
Lean functions over an explicit `Contract` state.  Each public call is an
atomic transition: on any failure the whole transition is discarded (NEAR
panics roll back every write of the call), which the embedding captures by
running each operation in `Except` and committing the returned state only on
success.

The persistent `UnorderedMap` / `LookupMap` collections are modelled as
association lists with the same observable interface (lookup, insert
returning the previous value, remove returning the removed value, length).
-/

set_option maxHeartbeats 1000000

namespace NftSeries

/-- Lookup in an association-list map: first entry with the given key. -/
def alookup {κ α : Type} [DecidableEq κ] : List (κ × α) → κ → Option α
  | [], _ => none
  | p :: r, k => if p.1 = k then some p.2 else alookup r k

/-- In-place replacement of the value at a key (used by insert on a present key). -/
def areplace {κ α : Type} [DecidableEq κ] (m : List (κ × α)) (k : κ) (v : α) :
    List (κ × α) :=
  m.map (fun p => if p.1 = k then (k, v) else p)

/-- `UnorderedMap::insert`: stores `v` at `k` and returns the previous value at
`k` (`none` when the key was absent). -/
def ainsert {κ α : Type} [DecidableEq κ] (m : List (κ × α)) (k : κ) (v : α) :
    List (κ × α) × Option α :=
  match alookup m k with
  | some old => (areplace m k v, some old)
  | none => (m ++ [(k, v)], none)

/-- `UnorderedMap::remove`: deletes the entry at `k` and returns the removed
value (`none` when the key was absent). -/
def aremove {κ α : Type} [DecidableEq κ] (m : List (κ × α)) (k : κ) :
    List (κ × α) × Option α :=
  (m.filter (fun p => !decide (p.1 = k)), alookup m k)

/-- The keys of an association-list map. -/
def keys {κ α : Type} (m : List (κ × α)) : List κ := m.map (·.1)

/-- `UnorderedSet::insert` on a set of strings: appends when absent. -/
def sinsert (s : List String) (x : String) : List String :=
  if x ∈ s then s else s ++ [x]

instance {ε α : Type} [DecidableEq ε] [DecidableEq α] :
    DecidableEq (Except ε α) := fun x y =>
  match x, y with
  | .ok a, .ok b =>
    if h : a = b then .isTrue (by rw [h]) else .isFalse (by simp [h])
  | .ok _, .error _ => .isFalse (by simp)
  | .error _, .ok _ => .isFalse (by simp)
  | .error e, .error f =>
    if h : e = f then .isTrue (by rw [h]) else .isFalse (by simp [h])


/-- Decode a decimal digit string (left to right). -/
def decodeDigits (l : List Char) : Nat :=
  l.foldl (fun a c => a * 10 + (c.toNat - 48)) 0

/-- The token identifier derived by `nft_mint`:
`format!("{}:{}", series_id, ordinal)`. -/
def tokenIdStr (sid ord : Nat) : String :=
  toString sid ++ ":" ++ toString ord

/-! ## Data model (series.rs together with the structs it stores) -/

/-- Token metadata.  Only the `copies` supply ceiling is ever read by
`series.rs`; the remaining descriptive fields of the standard metadata struct
are bundled into one inert payload field. -/
structure TokenMetadata where
  copies : Option Nat
  descriptive : String
  deriving DecidableEq

/-- One series record (struct `Series`): current external mint id, metadata,
optional perpetual-royalty split, the set of issued token ids, and the
creator/owner account. -/
structure Series where
  mint_id : Nat
  metadata : TokenMetadata
  royalty : Option (List (String × Nat))
  tokens : List String
  owner_id : String
  deriving DecidableEq

/-- One issued token (struct `Token`). -/
structure Token where
  series_id : Nat
  owner_id : String
  approved_account_ids : List (String × Nat)
  next_approval_id : Nat
  deriving DecidableEq

/-- Injected Keypom argument-integrity payload (struct `KeypomArgs`). -/
structure KeypomArgs where
  account_id_field : Option String
  drop_id_field : Option String
  key_id_field : Option String
  deriving DecidableEq

/-- Payload of one `NftMint` event entry (struct `NftMintLog`). -/
structure NftMintLog where
  owner_id : String
  token_ids : List String
  memo : Option String
  deriving DecidableEq

/-- One emitted event (struct `EventLog` with the `NftMint` variant). -/
structure EventLog where
  standard : String
  version : String
  event : List NftMintLog
  deriving DecidableEq

/-- Standard name "nep171" (constant of the events module; value quoted in the
source comments of `nft_mint`). -/
def NFT_STANDARD_NAME : String := "nep171"

/-- Standard version "nft-1.0.0" (constant of the events module; value quoted
in the source comments of `nft_mint`). -/
def NFT_METADATA_SPEC : String := "nft-1.0.0"

/-- The persistent contract state touched by `series.rs`. -/
structure Contract where
  series_by_id : List (Nat × Series)
  series_id_by_mint_id : List (Nat × Nat)
  approved_creators : List String
  approved_minters : List String
  tokens_by_id : List (String × Token)
  tokens_per_owner : List (String × List String)
  logs : List EventLog
  deriving DecidableEq

/-- Failure taxonomy: each constructor stands for one distinct abort site of
the three operations (NEAR `require!` / `expect` / `unwrap` panics). -/
inductive Err where
  | Unauthorized
  | DuplicateMintId
  | DuplicateSeriesId
  | DuplicateTokenId
  | UnknownMintId
  | UnknownSeries
  | SupplyExhausted
  | MalformedIntegrityPayload
  deriving DecidableEq

/-- Modelled from the spec: `is_approved_creator` lives outside this file; the
spec describes the creator role as a "simple presence check against an
externally populated set". -/
def is_approved_creator (c : Contract) (account : String) : Bool :=
  c.approved_creators.contains account

/-- Modelled from the spec: `internal_add_token_to_owner` belongs to the
excluded ownership subsystem; the spec says the mint appends the new token to
the receiver's ownership index. -/
def addTokenToOwner (m : List (String × List String)) (owner token_id : String) :
    List (String × List String) :=
  (ainsert m owner (((alookup m owner).getD []) ++ [token_id])).1

/-! ## The three public operations

Each operation is one atomic transition: the returned state is committed only
on success, mirroring NEAR's all-or-nothing panic semantics.  Storage metering
and `refund_deposit` are the excluded storage-accounting collaborator and are
not modelled (they add no state read by these operations). -/

/-- `create_series` (series.rs lines 16-71). -/
def create_series (c : Contract) (caller : String) (mint_id : Option Nat)
    (metadata : TokenMetadata) (royalty : Option (List (String × Nat))) :
    Except Err Contract :=
  if ¬ is_approved_creator c caller then .error Err.Unauthorized
  else
    let series_id : Nat := c.series_by_id.length + 1
    let final_mint_id : Nat :=
      match mint_id with
      | some m => m
      | none => series_id
    let ins1 := ainsert c.series_id_by_mint_id final_mint_id series_id
    if ins1.2.isSome then .error Err.DuplicateMintId
    else
      let newSeries : Series :=
        { mint_id := final_mint_id, metadata := metadata, royalty := royalty,
          tokens := [], owner_id := caller }
      let ins2 := ainsert c.series_by_id series_id newSeries
      if ins2.2.isSome then .error Err.DuplicateSeriesId
      else .ok { c with series_id_by_mint_id := ins1.1, series_by_id := ins2.1 }

/-- `nft_mint` (series.rs lines 73-152).  The two Keypom-args checks
(`unwrap` panic on a missing field, `require!` failure on a wrong field name)
are both the malformed-integrity-payload abort. -/
def nft_mint (c : Contract) (caller : String) (mint_id : Nat)
    (receiver_id : String) (keypom_args : KeypomArgs) : Except Err Contract :=
  if keypom_args.drop_id_field ≠ some "mint_id" then
    .error Err.MalformedIntegrityPayload
  else if keypom_args.account_id_field ≠ some "receiver_id" then
    .error Err.MalformedIntegrityPayload
  else if ¬ c.approved_minters.contains caller then .error Err.Unauthorized
  else
    match alookup c.series_id_by_mint_id mint_id with
    | none => .error Err.UnknownMintId
    | some series_id =>
      match alookup c.series_by_id series_id with
      | none => .error Err.UnknownSeries
      | some series =>
        let cur_len := series.tokens.length
        let theMint : Except Err Contract :=
          let token_id := tokenIdStr series_id (cur_len + 1)
          let series2 := { series with tokens := sinsert series.tokens token_id }
          let sb := (ainsert c.series_by_id series_id series2).1
          let token : Token :=
            { series_id := series_id, owner_id := receiver_id,
              approved_account_ids := [], next_approval_id := 0 }
          let ins := ainsert c.tokens_by_id token_id token
          if ins.2.isSome then .error Err.DuplicateTokenId
          else
            let tpo := addTokenToOwner c.tokens_per_owner receiver_id token_id
            let ev : EventLog :=
              { standard := NFT_STANDARD_NAME, version := NFT_METADATA_SPEC,
                event := [{ owner_id := receiver_id, token_ids := [token_id],
                            memo := none }] }
            .ok { c with series_by_id := sb, tokens_by_id := ins.1,
                         tokens_per_owner := tpo, logs := c.logs ++ [ev] }
        match series.metadata.copies with
        | some copies =>
          if ¬ cur_len < copies then .error Err.SupplyExhausted else theMint
        | none => theMint

/-- `update_mint_id` (series.rs lines 154-183). -/
def update_mint_id (c : Contract) (caller : String)
    (old_mint_id new_mint_id : Nat) : Except Err Contract :=
  let rem := aremove c.series_id_by_mint_id old_mint_id
  match rem.2 with
  | none => .error Err.UnknownMintId
  | some series_id =>
    match alookup c.series_by_id series_id with
    | none => .error Err.UnknownSeries
    | some series =>
      if series.owner_id ≠ caller then .error Err.Unauthorized
      else
        let ins := ainsert rem.1 new_mint_id series_id
        if ins.2.isSome then .error Err.DuplicateMintId
        else
          let series2 := { series with mint_id := new_mint_id }
          let sb := (ainsert c.series_by_id series_id series2).1
          .ok { c with series_id_by_mint_id := ins.1, series_by_id := sb }

/-! ## Transition system -/

/-- One public call, including external administration of the approved sets
(the admin endpoints live outside this file; the spec describes the sets as
externally populated). -/
inductive Op where
  | create (caller : String) (mint_id : Option Nat) (metadata : TokenMetadata)
      (royalty : Option (List (String × Nat)))
  | mint (caller : String) (mint_id : Nat) (receiver_id : String)
      (keypom_args : KeypomArgs)
  | update (caller : String) (old_mint_id new_mint_id : Nat)
  | admin (creators minters : List String)

/-- Run one call against a state. -/
def exec (c : Contract) : Op → Except Err Contract
  | .create caller mid md roy => create_series c caller mid md roy
  | .mint caller mid rcv kp => nft_mint c caller mid rcv kp
  | .update caller o n => update_mint_id c caller o n
  | .admin cs ms => .ok { c with approved_creators := cs, approved_minters := ms }

/-- Atomic commit: a failing call rolls back every write (NEAR panics abort
the whole transition), so the pre-state survives unchanged on error. -/
def applyOp (c : Contract) (op : Op) : Contract :=
  match exec c op with
  | .ok c2 => c2
  | .error _ => c

/-- The freshly deployed contract: every collection empty. -/
def initContract : Contract :=
  { series_by_id := [], series_id_by_mint_id := [], approved_creators := [],
    approved_minters := [], tokens_by_id := [], tokens_per_owner := [],
    logs := [] }

/-- States reachable from the freshly deployed contract by any sequence of
public calls. -/
inductive Reachable : Contract → Prop
  | init : Reachable initContract
  | step (c : Contract) (op : Op) : Reachable c → Reachable (applyOp c op)

/-- The external mint id actually used by `create_series`: the supplied one,
defaulting to the freshly allocated internal id. -/
def finalMintId (c : Contract) (mint_id : Option Nat) : Nat :=
  match mint_id with
  | some m => m
  | none => c.series_by_id.length + 1

/-- The token identifiers a series with internal id `sid` and `n` issued
copies holds: exactly "sid:1" … "sid:n", in mint order. -/
def mkTokens (sid n : Nat) : List String :=
  (List.range n).map (fun j => tokenIdStr sid (j + 1))

/-- Master invariant: holds in every reachable state and is preserved by every
public call.  It packages key uniqueness of the three stores, density of the
internal series ids, the two directions of the mint-id/series bijection, the
gapless shape of each issued-token set, the global token store being exactly
the union of the per-series sets, and the supply ceiling. -/
structure Inv (c : Contract) : Prop where
  nodupSeries : (keys c.series_by_id).Nodup
  nodupMint : (keys c.series_id_by_mint_id).Nodup
  nodupTokens : (keys c.tokens_by_id).Nodup
  seriesKeyBound : ∀ p ∈ c.series_by_id, 1 ≤ p.1 ∧ p.1 ≤ c.series_by_id.length
  mintToSeries : ∀ p ∈ c.series_id_by_mint_id,
    ∃ s, alookup c.series_by_id p.2 = some s ∧ s.mint_id = p.1
  seriesToMint : ∀ p ∈ c.series_by_id,
    alookup c.series_id_by_mint_id p.2.mint_id = some p.1
  tokensShape : ∀ p ∈ c.series_by_id, p.2.tokens = mkTokens p.1 p.2.tokens.length
  tokensGlobal : ∀ tid : String,
    (alookup c.tokens_by_id tid).isSome ↔ ∃ p ∈ c.series_by_id, tid ∈ p.2.tokens
  copiesBound : ∀ p ∈ c.series_by_id, ∀ cp, p.2.metadata.copies = some cp →
    p.2.tokens.length ≤ cp

/-! ## Iterated minting -/

/-- Run `nft_mint` with the same arguments `k` times in sequence, stopping at
the first failure. -/
def mintSeq (caller : String) (mint_id : Nat) (receiver_id : String)
    (kp : KeypomArgs) : Nat → Contract → Except Err Contract
  | 0, c => .ok c
  | k + 1, c =>
    match nft_mint c caller mint_id receiver_id kp with
    | .ok c2 => mintSeq caller mint_id receiver_id kp k c2
    | .error e => .error e

/-! ## A concrete scenario exercising the development -/

/-- A well-formed Keypom integrity payload. -/
def kpGood : KeypomArgs :=
  { account_id_field := some "receiver_id", drop_id_field := some "mint_id",
    key_id_field := none }

/-- Metadata with a supply ceiling of two copies. -/
def mdTwo : TokenMetadata := { copies := some 2, descriptive := "photo" }

/-- The deployed contract after the approved sets are populated. -/
def stateAdmin : Contract := applyOp initContract (.admin ["alice"] ["mina"])

/-- One series created by alice (internal id 1, defaulted mint id 1). -/
def stateOne : Contract := applyOp stateAdmin (.create "alice" none mdTwo none)

/-- A second series created by alice (internal id 2, defaulted mint id 2). -/
def stateTwo : Contract := applyOp stateOne (.create "alice" none mdTwo none)

/-- One copy of series 1 minted to bob. -/
def stateMinted : Contract := applyOp stateOne (.mint "mina" 1 "bob" kpGood)

/-- The series record as stored right after creation in `stateOne`. -/
def seriesOneRec : Series :=
  { mint_id := 1, metadata := mdTwo, royalty := none, tokens := [],
    owner_id := "alice" }


section AListLemmas

variable {κ α : Type} [DecidableEq κ]

theorem alookup_cons (p : κ × α) (r : List (κ × α)) (k : κ) :
    alookup (p :: r) k = if p.1 = k then some p.2 else alookup r k := rfl

theorem alookup_eq_none_iff {m : List (κ × α)} {k : κ} :
    alookup m k = none ↔ k ∉ keys m := by
  induction m with
  | nil => simp [alookup, keys]
  | cons p r ih =>
    simp only [alookup, keys, List.map_cons, List.mem_cons]
    split
    · next h => simp [h.symm]
    · next h =>
      rw [ih]
      simp only [keys]
      constructor
      · rintro hr (h1 | h2)
        · exact h h1.symm
        · exact hr h2
      · intro hk
        exact fun h2 => hk (Or.inr h2)

theorem mem_of_alookup {m : List (κ × α)} {k : κ} {v : α}
    (h : alookup m k = some v) : (k, v) ∈ m := by
  induction m with
  | nil => simp [alookup] at h
  | cons p r ih =>
    rw [alookup_cons] at h
    split at h
    · next hp =>
      cases p with
      | mk a b =>
        cases hp
        cases h
        exact List.mem_cons_self _ _
    · exact List.mem_cons_of_mem _ (ih h)

theorem alookup_isSome_iff {m : List (κ × α)} {k : κ} :
    (alookup m k).isSome ↔ k ∈ keys m := by
  cases he : alookup m k with
  | none =>
    simp only [Option.isSome_none, Bool.false_eq_true, false_iff]
    exact alookup_eq_none_iff.1 he
  | some v =>
    simp only [Option.isSome_some, true_iff]
    exact List.mem_map.2 ⟨(k, v), mem_of_alookup he, rfl⟩

theorem alookup_of_mem {m : List (κ × α)} {k : κ} {v : α}
    (hnd : (keys m).Nodup) (h : (k, v) ∈ m) : alookup m k = some v := by
  induction m with
  | nil => simp at h
  | cons p r ih =>
    simp only [keys, List.map_cons, List.nodup_cons] at hnd
    rcases List.mem_cons.1 h with h1 | h2
    · simp [alookup, ← h1]
    · have hk : k ∈ keys r := List.mem_map.2 ⟨(k, v), h2, rfl⟩
      have hne : p.1 ≠ k := fun he => hnd.1 (he ▸ hk)
      simp only [alookup, if_neg hne]
      exact ih hnd.2 h2

theorem alookup_append_right {m l : List (κ × α)} {k : κ}
    (hm : alookup m k = none) : alookup (m ++ l) k = alookup l k := by
  induction m with
  | nil => simp
  | cons p r ih =>
    simp only [alookup] at hm ⊢
    split at hm
    · exact absurd hm (by simp)
    · next h => simp only [List.cons_append, alookup, if_neg h]; exact ih hm

theorem alookup_append_left {m l : List (κ × α)} {k : κ} {v : α}
    (hm : alookup m k = some v) : alookup (m ++ l) k = some v := by
  induction m with
  | nil => simp [alookup] at hm
  | cons p r ih =>
    simp only [alookup] at hm ⊢
    split at hm
    · next h => simp [alookup, List.cons_append, if_pos h, hm]
    · next h => simp only [List.cons_append, alookup, if_neg h]; exact ih hm

theorem alookup_areplace {m : List (κ × α)} {k : κ} (v : α) (k2 : κ) :
    alookup (areplace m k v) k2 =
      if k2 = k then (alookup m k).map (fun _ => v) else alookup m k2 := by
  induction m with
  | nil => simp [areplace, alookup]
  | cons p r ih =>
    rw [show areplace (p :: r) k v
          = (if p.1 = k then (k, v) else p) :: areplace r k v from rfl]
    by_cases hp : p.1 = k
    · by_cases hk2 : k2 = k
      · simp [alookup_cons, hp, hk2, if_pos hp]
      · have hkk2 : ¬ k = k2 := fun h => hk2 h.symm
        simp [alookup_cons, hp, hk2, hkk2, ih]
    · by_cases hpk2 : p.1 = k2
      · have hk2 : ¬ k2 = k := fun h => hp (hpk2.trans h)
        simp [alookup_cons, hp, hk2, hpk2, ih]
      · simp only [alookup_cons, if_neg hp, if_neg hpk2, ih]

theorem keys_areplace {m : List (κ × α)} {k : κ} {v : α} :
    keys (areplace m k v) = keys m := by
  simp only [keys, areplace, List.map_map]
  apply List.map_congr_left
  intro p _
  by_cases hp : p.1 = k <;> simp [hp]

theorem alookup_filter_ne {m : List (κ × α)} (k k2 : κ) :
    alookup (m.filter (fun p => !decide (p.1 = k))) k2 =
      if k2 = k then none else alookup m k2 := by
  induction m with
  | nil => simp [alookup]
  | cons p r ih =>
    by_cases hp : p.1 = k
    · rw [List.filter_cons_of_neg (by simp [hp])]
      rw [ih]
      by_cases hk2 : k2 = k
      · simp [hk2]
      · simp only [if_neg hk2, alookup, if_neg (fun h : p.1 = k2 => hk2 (hp ▸ h).symm)]
    · rw [List.filter_cons_of_pos (by simp [hp])]
      simp only [alookup]
      by_cases hpk2 : p.1 = k2
      · have hk2 : ¬ k2 = k := fun h => hp (hpk2.trans h)
        simp [if_pos hpk2, if_neg hk2]
      · simp only [if_neg hpk2]
        exact ih

theorem mem_areplace {m : List (κ × α)} {k : κ} {v : α} {p : κ × α}
    (h : p ∈ areplace m k v) : (p = (k, v)) ∨ (p ∈ m ∧ p.1 ≠ k) := by
  simp only [areplace, List.mem_map] at h
  obtain ⟨q, hq, hfq⟩ := h
  by_cases hqk : q.1 = k
  · left
    rw [← hfq, if_pos hqk]
  · right
    rw [← hfq, if_neg hqk]
    exact ⟨hq, hqk⟩

theorem length_areplace {m : List (κ × α)} {k : κ} {v : α} :
    (areplace m k v).length = m.length := by
  simp [areplace]

theorem mem_areplace_of_mem {m : List (κ × α)} {k : κ} {v : α} {p : κ × α}
    (h : p ∈ m) (hk : p.1 ≠ k) : p ∈ areplace m k v :=
  List.mem_map.2 ⟨p, h, by simp [hk]⟩

theorem mem_areplace_self {m : List (κ × α)} {k : κ} {v w : α}
    (h : (k, w) ∈ m) : (k, v) ∈ areplace m k v :=
  List.mem_map.2 ⟨(k, w), h, by simp⟩

omit [DecidableEq κ] in
theorem exists_of_mem_keys {m : List (κ × α)} {k : κ} (h : k ∈ keys m) :
    ∃ v, (k, v) ∈ m := by
  simp only [keys, List.mem_map] at h
  obtain ⟨p, hp, hk⟩ := h
  cases p with
  | mk a b =>
    cases hk
    exact ⟨b, hp⟩

omit [DecidableEq κ] in
theorem mem_keys_of_mem {m : List (κ × α)} {p : κ × α} (h : p ∈ m) :
    p.1 ∈ keys m :=
  List.mem_map.2 ⟨p, h, rfl⟩

theorem areplace_of_lookup_none {m : List (κ × α)} {k : κ} {v : α}
    (h : alookup m k = none) : areplace m k v = m := by
  induction m with
  | nil => rfl
  | cons p r ih =>
    rw [alookup_cons] at h
    split at h
    · exact absurd h (by simp)
    · next hp =>
      show (if p.1 = k then (k, v) else p) :: areplace r k v = p :: r
      rw [if_neg hp, ih h]

theorem areplace_self {m : List (κ × α)} {k : κ} {v : α}
    (hnd : (keys m).Nodup) (h : alookup m k = some v) : areplace m k v = m := by
  induction m with
  | nil => rfl
  | cons p r ih =>
    simp only [keys, List.map_cons, List.nodup_cons] at hnd
    rw [alookup_cons] at h
    show (if p.1 = k then (k, v) else p) :: areplace r k v = p :: r
    split at h
    · next hp =>
      cases h
      have hrn : alookup r k = none := by
        rw [alookup_eq_none_iff]
        intro hk
        exact hnd.1 (hp ▸ hk)
      rw [if_pos hp, areplace_of_lookup_none hrn, ← hp]
    · next hp =>
      rw [if_neg hp, ih hnd.2 h]

theorem filter_ne_of_lookup_none {m : List (κ × α)} {k : κ}
    (h : alookup m k = none) :
    m.filter (fun p => !decide (p.1 = k)) = m := by
  rw [List.filter_eq_self]
  intro p hp
  simp only [Bool.not_eq_eq_eq_not, Bool.not_true, decide_eq_false_iff_not]
  intro he
  rw [alookup_eq_none_iff] at h
  exact h (he ▸ mem_keys_of_mem hp)

theorem length_filter_ne {m : List (κ × α)} {k : κ} {v : α}
    (hnd : (keys m).Nodup) (h : alookup m k = some v) :
    (m.filter (fun p => !decide (p.1 = k))).length + 1 = m.length := by
  induction m with
  | nil => simp [alookup] at h
  | cons p r ih =>
    simp only [keys, List.map_cons, List.nodup_cons] at hnd
    rw [alookup_cons] at h
    split at h
    · next hp =>
      have hrn : alookup r k = none := by
        rw [alookup_eq_none_iff]
        intro hk
        exact hnd.1 (hp ▸ hk)
      rw [List.filter_cons_of_neg (by simp [hp]), filter_ne_of_lookup_none hrn]
      simp
    · next hp =>
      rw [List.filter_cons_of_pos (by simp [hp])]
      simp only [List.length_cons]
      rw [← ih hnd.2 h]

omit [DecidableEq κ] in
theorem keys_nodup_append {m : List (κ × α)} {k : κ} {v : α}
    (hnd : (keys m).Nodup) (hk : k ∉ keys m) : (keys (m ++ [(k, v)])).Nodup := by
  simp only [keys, List.map_append, List.map_cons, List.map_nil]
  rw [List.nodup_append]
  refine ⟨hnd, List.nodup_singleton k, ?_⟩
  intro a ha hb
  simp only [List.mem_singleton] at hb
  subst hb
  exact hk ha

omit [DecidableEq κ] in
theorem keys_nodup_filter {m : List (κ × α)} (f : κ × α → Bool)
    (hnd : (keys m).Nodup) : (keys (m.filter f)).Nodup := by
  exact List.Nodup.sublist (List.Sublist.map _ (List.filter_sublist m)) hnd

omit [DecidableEq κ] in
theorem keys_filter_subset {m : List (κ × α)} {f : κ × α → Bool} {k : κ}
    (h : k ∈ keys (m.filter f)) : k ∈ keys m := by
  simp only [keys, List.mem_map] at h ⊢
  obtain ⟨p, hp, hk⟩ := h
  exact ⟨p, (List.mem_filter.1 hp).1, hk⟩

theorem alookup_append_singleton {m : List (κ × α)} {k : κ} {v : α} (k2 : κ)
    (hm : alookup m k = none) :
    alookup (m ++ [(k, v)]) k2 = if k2 = k then some v else alookup m k2 := by
  by_cases hk2 : k2 = k
  · subst hk2
    rw [alookup_append_right hm]
    simp [alookup]
  · simp only [if_neg hk2]
    cases hml : alookup m k2 with
    | none =>
      rw [alookup_append_right hml]
      have hkk2 : ¬ k = k2 := fun h => hk2 h.symm
      simp [alookup, hkk2]
    | some w => exact alookup_append_left hml

theorem ainsert_of_lookup_some {κ α : Type} [DecidableEq κ]
    {m : List (κ × α)} {k : κ} {w : α} (v : α) (h : alookup m k = some w) :
    ainsert m k v = (areplace m k v, some w) := by
  simp [ainsert, h]

theorem ainsert_of_lookup_none {κ α : Type} [DecidableEq κ]
    {m : List (κ × α)} {k : κ} (v : α) (h : alookup m k = none) :
    ainsert m k v = (m ++ [(k, v)], none) := by
  simp [ainsert, h]

theorem sinsert_of_not_mem {s : List String} {x : String} (h : x ∉ s) :
    sinsert s x = s ++ [x] := by
  simp [sinsert, h]

end AListLemmas

/-! ## Decimal rendering of token identifiers

`nft_mint` builds the token identifier with Rust
`format!("{}:{}", series_id, cur_len + 1)`: the decimal numerals of the two
numbers joined by a colon.  The lemmas below establish that this encoding is
injective (decimal numerals never contain a colon, and decimal rendering is
injective), which is what makes freshly derived token identifiers globally
fresh. -/

theorem digitChar_of_ge {n : Nat} (h : 16 ≤ n) : Nat.digitChar n = '*' := by
  unfold Nat.digitChar
  repeat rw [if_neg (by omega)]

theorem digitChar_ne_colon (n : Nat) : Nat.digitChar n ≠ ':' := by
  by_cases hn : n < 16
  · have h : ∀ m, m < 16 → Nat.digitChar m ≠ ':' := by decide
    exact h n hn
  · rw [digitChar_of_ge (by omega)]
    decide

theorem toDigitsCore_acc (b : Nat) (fuel : Nat) :
    ∀ (n : Nat) (ds : List Char),
      Nat.toDigitsCore b fuel n ds = Nat.toDigitsCore b fuel n [] ++ ds := by
  induction fuel with
  | zero => intro n ds; simp [Nat.toDigitsCore]
  | succ f ih =>
    intro n ds
    simp only [Nat.toDigitsCore]
    split
    · simp
    · rw [ih (n / b) (Nat.digitChar (n % b) :: ds), ih (n / b) [Nat.digitChar (n % b)]]
      simp

theorem toDigitsCore_ne_colon (b : Nat) (fuel : Nat) :
    ∀ (n : Nat) (ds : List Char), (∀ c ∈ ds, c ≠ ':') →
      ∀ c ∈ Nat.toDigitsCore b fuel n ds, c ≠ ':' := by
  induction fuel with
  | zero => intro n ds hds; simpa [Nat.toDigitsCore] using hds
  | succ f ih =>
    intro n ds hds
    simp only [Nat.toDigitsCore]
    split
    · intro c hc
      rcases List.mem_cons.1 hc with h | h
      · subst h; exact digitChar_ne_colon _
      · exact hds c h
    · refine ih _ _ ?_
      intro c hc
      rcases List.mem_cons.1 hc with h | h
      · subst h; exact digitChar_ne_colon _
      · exact hds c h

theorem toDigits_ne_colon (n : Nat) : ∀ c ∈ Nat.toDigits 10 n, c ≠ ':' :=
  toDigitsCore_ne_colon 10 (n + 1) n [] (by simp)

theorem digitChar_toNat (m : Nat) (h : m < 10) : (Nat.digitChar m).toNat = m + 48 := by
  interval_cases m <;> decide

theorem foldl_toDigitsCore (fuel : Nat) :
    ∀ (n : Nat), n < fuel → ∀ (acc : Nat),
      (Nat.toDigitsCore 10 fuel n []).foldl (fun a c => a * 10 + (c.toNat - 48)) acc
        = acc * 10 ^ (Nat.toDigitsCore 10 fuel n []).length + n := by
  induction fuel with
  | zero => intro n hn; omega
  | succ f ih =>
    intro n hn acc
    simp only [Nat.toDigitsCore]
    split
    · next h0 =>
      have hn10 : n < 10 := by omega
      have hmod : n % 10 = n := Nat.mod_eq_of_lt hn10
      simp only [hmod, List.foldl, List.length_cons, List.length_nil, pow_one,
        digitChar_toNat n hn10, Nat.zero_add]
      omega
    · next h0 =>
      rw [toDigitsCore_acc]
      have hdiv : n / 10 < f := by
        have h1 : n / 10 < n := Nat.div_lt_self (by omega) (by norm_num)
        omega
      have hm : n % 10 < 10 := Nat.mod_lt _ (by norm_num)
      rw [List.foldl_append, ih (n / 10) hdiv acc]
      simp only [List.foldl, List.length_append, List.length_cons, List.length_nil]
      rw [digitChar_toNat _ hm]
      have hpow : 10 ^ ((Nat.toDigitsCore 10 f (n / 10) []).length + (0 + 1))
          = 10 ^ (Nat.toDigitsCore 10 f (n / 10) []).length * 10 := by
        rw [pow_succ]
      rw [hpow]
      have hmod := Nat.div_add_mod n 10
      ring_nf
      omega

theorem decodeDigits_toDigits (n : Nat) : decodeDigits (Nat.toDigits 10 n) = n := by
  have := foldl_toDigitsCore (n + 1) n (Nat.lt_succ_self n) 0
  simpa [decodeDigits, Nat.toDigits] using this

theorem toDigits_injective {a b : Nat} (h : Nat.toDigits 10 a = Nat.toDigits 10 b) :
    a = b := by
  have ha := decodeDigits_toDigits a
  have hb := decodeDigits_toDigits b
  rw [h] at ha
  omega

theorem append_colon_inj {l1 l2 l3 l4 : List Char}
    (h1 : ∀ c ∈ l1, c ≠ ':') (h3 : ∀ c ∈ l3, c ≠ ':')
    (h : l1 ++ ':' :: l2 = l3 ++ ':' :: l4) : l1 = l3 ∧ l2 = l4 := by
  induction l1 generalizing l3 with
  | nil =>
    cases l3 with
    | nil => simpa using h
    | cons a r3 =>
      simp only [List.nil_append, List.cons_append, List.cons.injEq] at h
      exact absurd h.1.symm (h3 a (List.mem_cons_self a r3))
  | cons a r1 ih =>
    cases l3 with
    | nil =>
      simp only [List.nil_append, List.cons_append, List.cons.injEq] at h
      exact absurd h.1 (h1 a (List.mem_cons_self a r1))
    | cons b r3 =>
      simp only [List.cons_append, List.cons.injEq] at h
      have hrest := ih (fun c hc => h1 c (List.mem_cons_of_mem a hc))
        (fun c hc => h3 c (List.mem_cons_of_mem b hc)) h.2
      exact ⟨by rw [h.1, hrest.1], hrest.2⟩

theorem toString_nat_data (n : Nat) : (toString n).data = Nat.toDigits 10 n := rfl

theorem tokenIdStr_data (sid ord : Nat) :
    (tokenIdStr sid ord).data
      = Nat.toDigits 10 sid ++ ':' :: Nat.toDigits 10 ord := by
  show ((toString sid ++ ":") ++ toString ord).data = _
  rw [String.data_append, String.data_append]
  rw [toString_nat_data, toString_nat_data]
  rw [List.append_assoc]
  rfl

theorem tokenIdStr_inj {a b c d : Nat} (h : tokenIdStr a b = tokenIdStr c d) :
    a = c ∧ b = d := by
  have hdata : (tokenIdStr a b).data = (tokenIdStr c d).data := by rw [h]
  rw [tokenIdStr_data, tokenIdStr_data] at hdata
  have := append_colon_inj (toDigits_ne_colon a) (toDigits_ne_colon c) hdata
  exact ⟨toDigits_injective this.1, toDigits_injective this.2⟩


/-! ## Branch characterizations of the three operations -/

theorem create_series_unauthorized {c : Contract} {caller : String}
    {mid : Option Nat} {md : TokenMetadata} {roy : Option (List (String × Nat))}
    (happ : is_approved_creator c caller = false) :
    create_series c caller mid md roy = .error Err.Unauthorized := by
  simp [create_series, happ]

theorem create_series_dup_mint {c : Contract} {caller : String}
    {mid : Option Nat} {md : TokenMetadata} {roy : Option (List (String × Nat))}
    {w : Nat}
    (happ : is_approved_creator c caller = true)
    (hfm : alookup c.series_id_by_mint_id (finalMintId c mid) = some w) :
    create_series c caller mid md roy = .error Err.DuplicateMintId := by
  cases mid <;> simp_all [create_series, finalMintId, ainsert]

theorem create_series_ok {c : Contract} {caller : String} {mid : Option Nat}
    {md : TokenMetadata} {roy : Option (List (String × Nat))}
    (happ : is_approved_creator c caller = true)
    (hfm : alookup c.series_id_by_mint_id (finalMintId c mid) = none)
    (hsid : alookup c.series_by_id (c.series_by_id.length + 1) = none) :
    create_series c caller mid md roy = .ok
      { c with
        series_id_by_mint_id := c.series_id_by_mint_id
          ++ [(finalMintId c mid, c.series_by_id.length + 1)],
        series_by_id := c.series_by_id
          ++ [(c.series_by_id.length + 1,
              { mint_id := finalMintId c mid, metadata := md, royalty := roy,
                tokens := [], owner_id := caller })] } := by
  cases mid <;> simp_all [create_series, finalMintId, ainsert]

theorem nft_mint_malformed {c : Contract} {caller : String} {mint_id : Nat}
    {receiver_id : String} {kp : KeypomArgs}
    (h : kp.drop_id_field ≠ some "mint_id"
      ∨ kp.account_id_field ≠ some "receiver_id") :
    nft_mint c caller mint_id receiver_id kp
      = .error Err.MalformedIntegrityPayload := by
  rcases h with h | h
  · simp [nft_mint, h]
  · by_cases h1 : kp.drop_id_field = some "mint_id"
    · simp [nft_mint, h1, h]
    · simp [nft_mint, h1]

theorem nft_mint_unauthorized {c : Contract} {caller : String} {mint_id : Nat}
    {receiver_id : String} {kp : KeypomArgs}
    (hd : kp.drop_id_field = some "mint_id")
    (ha : kp.account_id_field = some "receiver_id")
    (hmin : c.approved_minters.contains caller = false) :
    nft_mint c caller mint_id receiver_id kp = .error Err.Unauthorized := by
  have hnm : caller ∉ c.approved_minters := by simpa using hmin
  simp [nft_mint, hd, ha, hnm]

theorem nft_mint_unknown_mint {c : Contract} {caller : String} {mint_id : Nat}
    {receiver_id : String} {kp : KeypomArgs}
    (hd : kp.drop_id_field = some "mint_id")
    (ha : kp.account_id_field = some "receiver_id")
    (hmin : c.approved_minters.contains caller = true)
    (hmid : alookup c.series_id_by_mint_id mint_id = none) :
    nft_mint c caller mint_id receiver_id kp = .error Err.UnknownMintId := by
  have hnm : caller ∈ c.approved_minters := by simpa using hmin
  simp [nft_mint, hd, ha, hnm, hmid]

theorem nft_mint_unknown_series {c : Contract} {caller : String} {mint_id : Nat}
    {receiver_id : String} {kp : KeypomArgs} {sid : Nat}
    (hd : kp.drop_id_field = some "mint_id")
    (ha : kp.account_id_field = some "receiver_id")
    (hmin : c.approved_minters.contains caller = true)
    (hmid : alookup c.series_id_by_mint_id mint_id = some sid)
    (hsl : alookup c.series_by_id sid = none) :
    nft_mint c caller mint_id receiver_id kp = .error Err.UnknownSeries := by
  have hnm : caller ∈ c.approved_minters := by simpa using hmin
  simp [nft_mint, hd, ha, hnm, hmid, hsl]

theorem nft_mint_supply_exhausted {c : Contract} {caller : String}
    {mint_id : Nat} {receiver_id : String} {kp : KeypomArgs}
    {sid : Nat} {s : Series} {N : Nat}
    (hd : kp.drop_id_field = some "mint_id")
    (ha : kp.account_id_field = some "receiver_id")
    (hmin : c.approved_minters.contains caller = true)
    (hmid : alookup c.series_id_by_mint_id mint_id = some sid)
    (hs : alookup c.series_by_id sid = some s)
    (hN : s.metadata.copies = some N)
    (hlen : ¬ s.tokens.length < N) :
    nft_mint c caller mint_id receiver_id kp = .error Err.SupplyExhausted := by
  have hnm : caller ∈ c.approved_minters := by simpa using hmin
  simp [nft_mint, hd, ha, hnm, hmid, hs, hN, hlen]

theorem nft_mint_ok {c : Contract} {caller : String} {mint_id : Nat}
    {receiver_id : String} {kp : KeypomArgs} {sid : Nat} {s : Series}
    (hd : kp.drop_id_field = some "mint_id")
    (ha : kp.account_id_field = some "receiver_id")
    (hmin : c.approved_minters.contains caller = true)
    (hmid : alookup c.series_id_by_mint_id mint_id = some sid)
    (hs : alookup c.series_by_id sid = some s)
    (hcopies : ∀ N, s.metadata.copies = some N → s.tokens.length < N)
    (hmem : tokenIdStr sid (s.tokens.length + 1) ∉ s.tokens)
    (hfresh : alookup c.tokens_by_id (tokenIdStr sid (s.tokens.length + 1))
      = none) :
    nft_mint c caller mint_id receiver_id kp = .ok
      { c with
        series_by_id := areplace c.series_by_id sid
          { s with tokens := s.tokens ++ [tokenIdStr sid (s.tokens.length + 1)] },
        tokens_by_id := c.tokens_by_id
          ++ [(tokenIdStr sid (s.tokens.length + 1),
              { series_id := sid, owner_id := receiver_id,
                approved_account_ids := [], next_approval_id := 0 })],
        tokens_per_owner := addTokenToOwner c.tokens_per_owner receiver_id
          (tokenIdStr sid (s.tokens.length + 1)),
        logs := c.logs ++
          [{ standard := NFT_STANDARD_NAME, version := NFT_METADATA_SPEC,
             event := [{ owner_id := receiver_id,
                         token_ids := [tokenIdStr sid (s.tokens.length + 1)],
                         memo := none }] }] } := by
  have hsin := sinsert_of_not_mem hmem
  have hnm : caller ∈ c.approved_minters := by simpa using hmin
  cases hcp : s.metadata.copies with
  | none => simp [nft_mint, hd, ha, hnm, hmid, hs, hcp, hsin, hfresh, ainsert]
  | some N =>
    have hlt := hcopies N hcp
    simp [nft_mint, hd, ha, hnm, hmid, hs, hcp, hsin, hfresh, hlt, ainsert]

theorem update_mint_id_unknown {c : Contract} {caller : String}
    {old_mint_id new_mint_id : Nat}
    (hold : alookup c.series_id_by_mint_id old_mint_id = none) :
    update_mint_id c caller old_mint_id new_mint_id
      = .error Err.UnknownMintId := by
  simp [update_mint_id, aremove, hold]

theorem update_mint_id_unauthorized {c : Contract} {caller : String}
    {old_mint_id new_mint_id sid : Nat} {s : Series}
    (hold : alookup c.series_id_by_mint_id old_mint_id = some sid)
    (hs : alookup c.series_by_id sid = some s)
    (hown : s.owner_id ≠ caller) :
    update_mint_id c caller old_mint_id new_mint_id
      = .error Err.Unauthorized := by
  simp [update_mint_id, aremove, hold, hs, hown]

theorem update_mint_id_dup {c : Contract} {caller : String}
    {old_mint_id new_mint_id sid : Nat} {s : Series} {w : Nat}
    (hold : alookup c.series_id_by_mint_id old_mint_id = some sid)
    (hs : alookup c.series_by_id sid = some s)
    (hown : s.owner_id = caller)
    (hne : new_mint_id ≠ old_mint_id)
    (hnew : alookup c.series_id_by_mint_id new_mint_id = some w) :
    update_mint_id c caller old_mint_id new_mint_id
      = .error Err.DuplicateMintId := by
  have hql : alookup
      (c.series_id_by_mint_id.filter (fun p => !decide (p.1 = old_mint_id)))
      new_mint_id = some w := by
    rw [alookup_filter_ne, if_neg hne, hnew]
  simp [update_mint_id, aremove, hold, hs, hown, ainsert, hql]

theorem update_mint_id_ok {c : Contract} {caller : String}
    {old_mint_id new_mint_id sid : Nat} {s : Series}
    (hold : alookup c.series_id_by_mint_id old_mint_id = some sid)
    (hs : alookup c.series_by_id sid = some s)
    (hown : s.owner_id = caller)
    (hfresh : new_mint_id = old_mint_id
      ∨ alookup c.series_id_by_mint_id new_mint_id = none) :
    update_mint_id c caller old_mint_id new_mint_id = .ok
      { c with
        series_id_by_mint_id :=
          (c.series_id_by_mint_id.filter (fun p => !decide (p.1 = old_mint_id)))
            ++ [(new_mint_id, sid)],
        series_by_id := areplace c.series_by_id sid
          { s with mint_id := new_mint_id } } := by
  have hql : alookup
      (c.series_id_by_mint_id.filter (fun p => !decide (p.1 = old_mint_id)))
      new_mint_id = none := by
    rw [alookup_filter_ne]
    rcases hfresh with h | h
    · rw [if_pos h]
    · by_cases h2 : new_mint_id = old_mint_id
      · rw [if_pos h2]
      · rw [if_neg h2, h]
  simp [update_mint_id, aremove, hold, hs, hown, ainsert, hql]

theorem mkTokens_length (sid n : Nat) : (mkTokens sid n).length = n := by
  simp [mkTokens]

theorem mkTokens_zero (sid : Nat) : mkTokens sid 0 = [] := rfl

theorem mkTokens_succ (sid n : Nat) :
    mkTokens sid (n + 1) = mkTokens sid n ++ [tokenIdStr sid (n + 1)] := by
  simp [mkTokens, List.range_succ]

theorem mem_mkTokens {tid : String} {sid n : Nat} :
    tid ∈ mkTokens sid n ↔ ∃ j, j < n ∧ tid = tokenIdStr sid (j + 1) := by
  simp only [mkTokens, List.mem_map, List.mem_range]
  constructor
  · rintro ⟨j, hj, rfl⟩
    exact ⟨j, hj, rfl⟩
  · rintro ⟨j, hj, rfl⟩
    exact ⟨j, hj, rfl⟩

theorem next_tokenId_not_mem (sid n : Nat) :
    tokenIdStr sid (n + 1) ∉ mkTokens sid n := by
  rw [mem_mkTokens]
  rintro ⟨j, hj, he⟩
  have := (tokenIdStr_inj he).2
  omega

/-! ## The master invariant of reachable states -/

theorem inv_init : Inv initContract := by
  constructor <;> simp [initContract, keys, alookup]

/-- Under the invariant the next internal series id is fresh. -/
theorem fresh_series_id {c : Contract} (h : Inv c) :
    alookup c.series_by_id (c.series_by_id.length + 1) = none := by
  rw [alookup_eq_none_iff]
  intro hk
  obtain ⟨v, hv⟩ := exists_of_mem_keys hk
  have := (h.seriesKeyBound _ hv).2
  omega

/-- Under the invariant a resolvable mint id denotes an existing series whose
`mint_id` field points back at it. -/
theorem series_of_mint_lookup {c : Contract} (h : Inv c) {m sid : Nat}
    (hm : alookup c.series_id_by_mint_id m = some sid) :
    ∃ s, alookup c.series_by_id sid = some s ∧ s.mint_id = m :=
  h.mintToSeries (m, sid) (mem_of_alookup hm)

/-- Under the invariant, mapping values never exceed the series count. -/
theorem mint_value_le {c : Contract} (h : Inv c) {m sid : Nat}
    (hm : alookup c.series_id_by_mint_id m = some sid) :
    1 ≤ sid ∧ sid ≤ c.series_by_id.length := by
  obtain ⟨s, hs, _⟩ := series_of_mint_lookup h hm
  exact h.seriesKeyBound (sid, s) (mem_of_alookup hs)

/-- Under the invariant the token id derived for the next copy of an existing
series is absent from the global token store. -/
theorem fresh_token_id {c : Contract} (h : Inv c) {sid : Nat} {s : Series}
    (hs : alookup c.series_by_id sid = some s) :
    alookup c.tokens_by_id (tokenIdStr sid (s.tokens.length + 1)) = none := by
  cases he : alookup c.tokens_by_id (tokenIdStr sid (s.tokens.length + 1)) with
  | none => rfl
  | some tok =>
    exfalso
    have hex := (h.tokensGlobal (tokenIdStr sid (s.tokens.length + 1))).1
      (by rw [he]; rfl)
    obtain ⟨p, hp, htid⟩ := hex
    have hshape := h.tokensShape p hp
    rw [hshape, mem_mkTokens] at htid
    obtain ⟨j, hj, hje⟩ := htid
    obtain ⟨hsid, hord⟩ := tokenIdStr_inj hje
    subst hsid
    have hps : alookup c.series_by_id p.1 = some p.2 := by
      cases p with
      | mk a b => exact alookup_of_mem h.nodupSeries hp
    rw [hs] at hps
    cases hps
    omega

/-- Under the invariant the token id derived for the next copy is not already
one of the series' issued identifiers. -/
theorem fresh_token_not_issued {c : Contract} (h : Inv c) {sid : Nat}
    {s : Series} (hs : alookup c.series_by_id sid = some s) :
    tokenIdStr sid (s.tokens.length + 1) ∉ s.tokens := by
  have hshape : s.tokens = mkTokens sid s.tokens.length :=
    h.tokensShape (sid, s) (mem_of_alookup hs)
  intro hmm
  rw [hshape, mem_mkTokens] at hmm
  simp only [mkTokens_length] at hmm
  obtain ⟨j, hj, hje⟩ := hmm
  have := (tokenIdStr_inj hje).2
  omega

/-- `create_series` preserves the invariant. -/
theorem inv_create {c c2 : Contract} {caller : String} {mid : Option Nat}
    {md : TokenMetadata} {roy : Option (List (String × Nat))}
    (h : Inv c) (hok : create_series c caller mid md roy = .ok c2) : Inv c2 := by
  cases happ : is_approved_creator c caller with
  | false => rw [create_series_unauthorized happ] at hok; cases hok
  | true =>
    cases hfm : alookup c.series_id_by_mint_id (finalMintId c mid) with
    | some w => rw [create_series_dup_mint happ hfm] at hok; cases hok
    | none =>
      have hsid := fresh_series_id h
      rw [create_series_ok happ hfm hsid] at hok
      cases hok
      have hknotin : (c.series_by_id.length + 1) ∉ keys c.series_by_id :=
        alookup_eq_none_iff.1 hsid
      have hfmnotin : finalMintId c mid ∉ keys c.series_id_by_mint_id :=
        alookup_eq_none_iff.1 hfm
      constructor
      · exact keys_nodup_append h.nodupSeries hknotin
      · exact keys_nodup_append h.nodupMint hfmnotin
      · exact h.nodupTokens
      · intro p hp
        rcases List.mem_append.1 hp with hp | hp
        · have := h.seriesKeyBound p hp
          simp only [List.length_append, List.length_cons, List.length_nil]
          omega
        · simp only [List.mem_singleton] at hp
          subst hp
          simp only [List.length_append, List.length_cons, List.length_nil]
          simp
      · intro p hp
        rcases List.mem_append.1 hp with hp | hp
        · obtain ⟨s, hls, hmint⟩ := h.mintToSeries p hp
          exact ⟨s, alookup_append_left hls, hmint⟩
        · simp only [List.mem_singleton] at hp
          subst hp
          refine ⟨{ mint_id := finalMintId c mid, metadata := md, royalty := roy,
                    tokens := [], owner_id := caller }, ?_, rfl⟩
          rw [alookup_append_singleton _ hsid]
          simp
      · intro p hp
        rcases List.mem_append.1 hp with hp | hp
        · exact alookup_append_left (h.seriesToMint p hp)
        · simp only [List.mem_singleton] at hp
          subst hp
          rw [alookup_append_singleton _ hfm]
          simp
      · intro p hp
        rcases List.mem_append.1 hp with hp | hp
        · exact h.tokensShape p hp
        · simp only [List.mem_singleton] at hp
          subst hp
          simp [mkTokens]
      · intro tid
        rw [h.tokensGlobal tid]
        constructor
        · rintro ⟨p, hp, ht⟩
          exact ⟨p, List.mem_append_left _ hp, ht⟩
        · rintro ⟨p, hp, ht⟩
          rcases List.mem_append.1 hp with hp | hp
          · exact ⟨p, hp, ht⟩
          · simp only [List.mem_singleton] at hp
            subst hp
            simp at ht
      · intro p hp cp hcp
        rcases List.mem_append.1 hp with hp | hp
        · exact h.copiesBound p hp cp hcp
        · simp only [List.mem_singleton] at hp
          subst hp
          simp

/-- `update_mint_id` preserves the invariant. -/
theorem inv_update {c c2 : Contract} {caller : String}
    {old_mint_id new_mint_id : Nat}
    (h : Inv c)
    (hok : update_mint_id c caller old_mint_id new_mint_id = .ok c2) :
    Inv c2 := by
  cases hold : alookup c.series_id_by_mint_id old_mint_id with
  | none => rw [update_mint_id_unknown hold] at hok; cases hok
  | some sid =>
    obtain ⟨s, hs, hsmint⟩ := series_of_mint_lookup h hold
    by_cases hown : s.owner_id = caller
    case neg => rw [update_mint_id_unauthorized hold hs hown] at hok; cases hok
    case pos =>
    by_cases hfresh : new_mint_id = old_mint_id
      ∨ alookup c.series_id_by_mint_id new_mint_id = none
    case neg =>
      push_neg at hfresh
      obtain ⟨hne, hsome⟩ := hfresh
      cases hnew : alookup c.series_id_by_mint_id new_mint_id with
      | none => exact absurd hnew hsome
      | some w =>
        rw [update_mint_id_dup hold hs hown hne hnew] at hok
        cases hok
    case pos =>
    rw [update_mint_id_ok hold hs hown hfresh] at hok
    cases hok
    have hmem_s : (sid, s) ∈ c.series_by_id := mem_of_alookup hs
    have hql : alookup
        (c.series_id_by_mint_id.filter (fun p => !decide (p.1 = old_mint_id)))
        new_mint_id = none := by
      rw [alookup_filter_ne]
      rcases hfresh with hfr | hfr
      · rw [if_pos hfr]
      · by_cases h2 : new_mint_id = old_mint_id
        · rw [if_pos h2]
        · rw [if_neg h2, hfr]
    have hnotin_f : new_mint_id ∉ keys
        (c.series_id_by_mint_id.filter (fun p => !decide (p.1 = old_mint_id))) :=
      alookup_eq_none_iff.1 hql
    have hM2 : ∀ k, alookup
        ((c.series_id_by_mint_id.filter (fun p => !decide (p.1 = old_mint_id)))
          ++ [(new_mint_id, sid)]) k
        = if k = new_mint_id then some sid
          else if k = old_mint_id then none
          else alookup c.series_id_by_mint_id k := by
      intro k
      rw [alookup_append_singleton k hql, alookup_filter_ne]
    have hS2 : ∀ k, alookup
        (areplace c.series_by_id sid { s with mint_id := new_mint_id }) k
        = if k = sid then some { s with mint_id := new_mint_id }
          else alookup c.series_by_id k := by
      intro k
      rw [alookup_areplace]
      by_cases hk : k = sid
      · subst hk
        rw [if_pos rfl, if_pos rfl, hs]
        rfl
      · rw [if_neg hk, if_neg hk]
    constructor
    · rw [show keys (areplace c.series_by_id sid { s with mint_id := new_mint_id })
          = keys c.series_by_id from keys_areplace]
      exact h.nodupSeries
    · exact keys_nodup_append (keys_nodup_filter _ h.nodupMint) hnotin_f
    · exact h.nodupTokens
    · intro p hp
      rcases mem_areplace hp with hpe | ⟨hpm, hpne⟩
      · subst hpe
        have hb := h.seriesKeyBound (sid, s) hmem_s
        simpa [length_areplace] using hb
      · have hb := h.seriesKeyBound p hpm
        simpa [length_areplace] using hb
    · intro p hp
      rcases List.mem_append.1 hp with hp | hp
      · have hpm := (List.mem_filter.1 hp).1
        have hpne : ¬ p.1 = old_mint_id := by
          have := (List.mem_filter.1 hp).2
          simpa using this
        obtain ⟨s0, hls0, hm0⟩ := h.mintToSeries p hpm
        by_cases hpsid : p.2 = sid
        · exfalso
          rw [hpsid, hs] at hls0
          cases hls0
          exact hpne (hm0 ▸ hsmint).symm.symm
        · refine ⟨s0, ?_, hm0⟩
          rw [hS2 p.2, if_neg hpsid]
          exact hls0
      · simp only [List.mem_singleton] at hp
        subst hp
        refine ⟨{ s with mint_id := new_mint_id }, ?_, rfl⟩
        rw [hS2 sid, if_pos rfl]
    · intro p hp
      rcases mem_areplace hp with hpe | ⟨hpm, hpne⟩
      · subst hpe
        show alookup _ new_mint_id = some sid
        rw [hM2 new_mint_id, if_pos rfl]
      · have hlm := h.seriesToMint p hpm
        have hmid_ne_new : p.2.mint_id ≠ new_mint_id := by
          intro he
          rcases hfresh with hfr | hfr
          · rw [he, hfr, hold] at hlm
            cases hlm
            exact hpne rfl
          · rw [he, hfr] at hlm
            cases hlm
        have hmid_ne_old : p.2.mint_id ≠ old_mint_id := by
          intro he
          rw [he, hold] at hlm
          cases hlm
          exact hpne rfl
        rw [hM2 p.2.mint_id, if_neg hmid_ne_new, if_neg hmid_ne_old]
        exact hlm
    · intro p hp
      rcases mem_areplace hp with hpe | ⟨hpm, hpne⟩
      · subst hpe
        exact h.tokensShape (sid, s) hmem_s
      · exact h.tokensShape p hpm
    · intro tid
      rw [h.tokensGlobal tid]
      constructor
      · rintro ⟨p, hp, ht⟩
        rcases p with ⟨k, v⟩
        by_cases hk : k = sid
        · subst hk
          have hv := alookup_of_mem h.nodupSeries hp
          rw [hs] at hv
          cases hv
          exact ⟨(k, { s with mint_id := new_mint_id }), mem_areplace_self hp, ht⟩
        · exact ⟨(k, v), mem_areplace_of_mem hp hk, ht⟩
      · rintro ⟨p, hp, ht⟩
        rcases mem_areplace hp with hpe | ⟨hpm, hpne⟩
        · subst hpe
          exact ⟨(sid, s), hmem_s, ht⟩
        · exact ⟨p, hpm, ht⟩
    · intro p hp cp hcp
      rcases mem_areplace hp with hpe | ⟨hpm, hpne⟩
      · subst hpe
        exact h.copiesBound (sid, s) hmem_s cp hcp
      · exact h.copiesBound p hpm cp hcp

/-- `nft_mint` preserves the invariant. -/
theorem inv_mint {c c2 : Contract} {caller : String} {mint_id : Nat}
    {receiver_id : String} {kp : KeypomArgs}
    (h : Inv c) (hok : nft_mint c caller mint_id receiver_id kp = .ok c2) :
    Inv c2 := by
  by_cases hd : kp.drop_id_field = some "mint_id"
  case neg => rw [nft_mint_malformed (Or.inl hd)] at hok; cases hok
  case pos =>
  by_cases ha : kp.account_id_field = some "receiver_id"
  case neg => rw [nft_mint_malformed (Or.inr ha)] at hok; cases hok
  case pos =>
  cases hmin : c.approved_minters.contains caller with
  | false => rw [nft_mint_unauthorized hd ha hmin] at hok; cases hok
  | true =>
  cases hmid : alookup c.series_id_by_mint_id mint_id with
  | none => rw [nft_mint_unknown_mint hd ha hmin hmid] at hok; cases hok
  | some sid =>
  obtain ⟨s, hs, hsmint⟩ := series_of_mint_lookup h hmid
  by_cases hcap : ∀ N, s.metadata.copies = some N → s.tokens.length < N
  case neg =>
    push_neg at hcap
    obtain ⟨N, hN, hlen⟩ := hcap
    rw [nft_mint_supply_exhausted hd ha hmin hmid hs hN (by omega)] at hok
    cases hok
  case pos =>
  have hmem_s : (sid, s) ∈ c.series_by_id := mem_of_alookup hs
  have hshape : s.tokens = mkTokens sid s.tokens.length :=
    h.tokensShape (sid, s) hmem_s
  have hmem : tokenIdStr sid (s.tokens.length + 1) ∉ s.tokens := by
    intro hmm
    rw [hshape, mem_mkTokens] at hmm
    simp only [mkTokens_length] at hmm
    obtain ⟨j, hj, hje⟩ := hmm
    have := (tokenIdStr_inj hje).2
    omega
  have hfresh := fresh_token_id h hs
  rw [nft_mint_ok hd ha hmin hmid hs hcap hmem hfresh] at hok
  cases hok
  have hS2 : ∀ k, alookup
      (areplace c.series_by_id sid
        { s with tokens := s.tokens ++ [tokenIdStr sid (s.tokens.length + 1)] }) k
      = if k = sid
        then some
          { s with tokens := s.tokens ++ [tokenIdStr sid (s.tokens.length + 1)] }
        else alookup c.series_by_id k := by
    intro k
    rw [alookup_areplace]
    by_cases hk : k = sid
    · subst hk
      rw [if_pos rfl, if_pos rfl, hs]
      rfl
    · rw [if_neg hk, if_neg hk]
  constructor
  · rw [show keys (areplace c.series_by_id sid
        { s with tokens := s.tokens ++ [tokenIdStr sid (s.tokens.length + 1)] })
        = keys c.series_by_id from keys_areplace]
    exact h.nodupSeries
  · exact h.nodupMint
  · exact keys_nodup_append h.nodupTokens (alookup_eq_none_iff.1 hfresh)
  · intro p hp
    rcases mem_areplace hp with hpe | ⟨hpm, hpne⟩
    · subst hpe
      have hb := h.seriesKeyBound (sid, s) hmem_s
      simpa [length_areplace] using hb
    · have hb := h.seriesKeyBound p hpm
      simpa [length_areplace] using hb
  · intro p hp
    obtain ⟨s0, hls0, hm0⟩ := h.mintToSeries p hp
    by_cases hpsid : p.2 = sid
    · rw [hpsid, hs] at hls0
      cases hls0
      refine ⟨{ s with tokens := s.tokens ++ [tokenIdStr sid (s.tokens.length + 1)] },
        ?_, hm0⟩
      rw [hS2 p.2, if_pos hpsid]
    · refine ⟨s0, ?_, hm0⟩
      rw [hS2 p.2, if_neg hpsid]
      exact hls0
  · intro p hp
    rcases mem_areplace hp with hpe | ⟨hpm, hpne⟩
    · subst hpe
      exact h.seriesToMint (sid, s) hmem_s
    · exact h.seriesToMint p hpm
  · intro p hp
    rcases mem_areplace hp with hpe | ⟨hpm, hpne⟩
    · subst hpe
      show s.tokens ++ [tokenIdStr sid (s.tokens.length + 1)]
        = mkTokens sid (s.tokens ++ [tokenIdStr sid (s.tokens.length + 1)]).length
      rw [List.length_append, List.length_cons, List.length_nil]
      rw [mkTokens_succ, ← hshape]
    · exact h.tokensShape p hpm
  · intro tid
    by_cases ht : tid = tokenIdStr sid (s.tokens.length + 1)
    · subst ht
      rw [alookup_append_singleton _ hfresh, if_pos rfl]
      simp only [Option.isSome_some, true_iff]
      refine ⟨(sid,
        { s with tokens := s.tokens ++ [tokenIdStr sid (s.tokens.length + 1)] }),
        mem_areplace_self hmem_s, ?_⟩
      simp
    · rw [alookup_append_singleton _ hfresh, if_neg ht, h.tokensGlobal tid]
      constructor
      · rintro ⟨⟨k, v⟩, hp, htv⟩
        by_cases hk : k = sid
        · subst hk
          have hv := alookup_of_mem h.nodupSeries hp
          rw [hs] at hv
          cases hv
          refine ⟨(k,
            { s with tokens := s.tokens ++ [tokenIdStr k (s.tokens.length + 1)] }),
            mem_areplace_self hp, ?_⟩
          exact List.mem_append_left _ htv
        · exact ⟨(k, v), mem_areplace_of_mem hp hk, htv⟩
      · rintro ⟨p, hp, htv⟩
        rcases mem_areplace hp with hpe | ⟨hpm, hpne⟩
        · subst hpe
          rcases List.mem_append.1 htv with htv | htv
          · exact ⟨(sid, s), hmem_s, htv⟩
          · simp only [List.mem_singleton] at htv
            exact absurd htv ht
        · exact ⟨p, hpm, htv⟩
  · intro p hp cp hcp
    rcases mem_areplace hp with hpe | ⟨hpm, hpne⟩
    · subst hpe
      have hlt := hcap cp hcp
      show (s.tokens ++ [tokenIdStr sid (s.tokens.length + 1)]).length ≤ cp
      rw [List.length_append, List.length_cons, List.length_nil]
      omega
    · exact h.copiesBound p hpm cp hcp

/-- Every public call preserves the invariant. -/
theorem inv_applyOp {c : Contract} (op : Op) (h : Inv c) : Inv (applyOp c op) := by
  cases hex : exec c op with
  | error e =>
    have h2 : applyOp c op = c := by simp [applyOp, hex]
    rw [h2]
    exact h
  | ok c2 =>
    have h2 : applyOp c op = c2 := by simp [applyOp, hex]
    rw [h2]
    cases op with
    | create caller mid md roy => exact inv_create h hex
    | mint caller mid rcv kp => exact inv_mint h hex
    | update caller o n => exact inv_update h hex
    | admin cs ms =>
      simp only [exec] at hex
      cases hex
      exact ⟨h.nodupSeries, h.nodupMint, h.nodupTokens, h.seriesKeyBound,
        h.mintToSeries, h.seriesToMint, h.tokensShape, h.tokensGlobal,
        h.copiesBound⟩

/-- The master invariant holds in every reachable state. -/
theorem inv_reachable {c : Contract} (h : Reachable c) : Inv c := by
  induction h with
  | init => exact inv_init
  | step c op hc ih => exact inv_applyOp op ih

theorem mintSeq_zero (caller : String) (mint_id : Nat) (receiver_id : String)
    (kp : KeypomArgs) (c : Contract) :
    mintSeq caller mint_id receiver_id kp 0 c = .ok c := rfl

theorem mintSeq_succ (caller : String) (mint_id : Nat) (receiver_id : String)
    (kp : KeypomArgs) (k : Nat) (c : Contract) :
    mintSeq caller mint_id receiver_id kp (k + 1) c
      = match nft_mint c caller mint_id receiver_id kp with
        | .ok c2 => mintSeq caller mint_id receiver_id kp k c2
        | .error e => .error e := rfl

theorem mintSeq_add (caller : String) (mint_id : Nat) (receiver_id : String)
    (kp : KeypomArgs) (a b : Nat) :
    ∀ c : Contract, mintSeq caller mint_id receiver_id kp (a + b) c
      = match mintSeq caller mint_id receiver_id kp a c with
        | .ok c2 => mintSeq caller mint_id receiver_id kp b c2
        | .error e => .error e := by
  induction a with
  | zero => intro c; simp [mintSeq_zero]
  | succ a ih =>
    intro c
    have he : a + 1 + b = (a + b) + 1 := by omega
    rw [he, mintSeq_succ, mintSeq_succ]
    cases hmint : nft_mint c caller mint_id receiver_id kp with
    | ok c2 => exact ih c2
    | error e => rfl

/-- One successful mint step: under the invariant, with a resolvable mint id
and room left under the ceiling, the mint succeeds and extends the series'
issued set by exactly the next derived token identifier. -/
theorem nft_mint_step {c : Contract} {caller : String} {mint_id : Nat}
    {receiver_id : String} {kp : KeypomArgs} {sid : Nat} {s : Series}
    (h : Inv c)
    (hd : kp.drop_id_field = some "mint_id")
    (ha : kp.account_id_field = some "receiver_id")
    (hmin : c.approved_minters.contains caller = true)
    (hmid : alookup c.series_id_by_mint_id mint_id = some sid)
    (hs : alookup c.series_by_id sid = some s)
    (hroom : ∀ N, s.metadata.copies = some N → s.tokens.length < N) :
    ∃ c2, nft_mint c caller mint_id receiver_id kp = .ok c2 ∧
      alookup c2.series_id_by_mint_id mint_id = some sid ∧
      alookup c2.series_by_id sid
        = some { s with tokens := s.tokens ++ [tokenIdStr sid (s.tokens.length + 1)] } ∧
      c2.approved_minters = c.approved_minters ∧
      Inv c2 := by
  have hmem_s : (sid, s) ∈ c.series_by_id := mem_of_alookup hs
  have hshape : s.tokens = mkTokens sid s.tokens.length :=
    h.tokensShape (sid, s) hmem_s
  have hmem : tokenIdStr sid (s.tokens.length + 1) ∉ s.tokens := by
    intro hmm
    rw [hshape, mem_mkTokens] at hmm
    simp only [mkTokens_length] at hmm
    obtain ⟨j, hj, hje⟩ := hmm
    have := (tokenIdStr_inj hje).2
    omega
  have hfresh := fresh_token_id h hs
  have hok := @nft_mint_ok c caller mint_id receiver_id kp sid s
    hd ha hmin hmid hs hroom hmem hfresh
  refine ⟨_, hok, hmid, ?_, rfl, inv_mint h hok⟩
  rw [alookup_areplace]
  rw [if_pos rfl, hs]
  rfl

/-- Iterated successful minting: starting from an invariant state whose series
has `l` issued copies and ceiling `N`, any `k ≤ N - l` further mints succeed
and leave the series holding exactly the identifiers `"sid:1" … "sid:(l+k)"`. -/
theorem mintSeq_ok {caller : String} {mint_id : Nat} {receiver_id : String}
    {kp : KeypomArgs}
    (hd : kp.drop_id_field = some "mint_id")
    (ha : kp.account_id_field = some "receiver_id") :
    ∀ (k : Nat) (c : Contract) (sid : Nat) (s : Series) (N : Nat),
      Inv c →
      c.approved_minters.contains caller = true →
      alookup c.series_id_by_mint_id mint_id = some sid →
      alookup c.series_by_id sid = some s →
      s.metadata.copies = some N →
      s.tokens.length + k ≤ N →
      ∃ (c2 : Contract) (s2 : Series),
        mintSeq caller mint_id receiver_id kp k c = .ok c2 ∧
        alookup c2.series_id_by_mint_id mint_id = some sid ∧
        alookup c2.series_by_id sid = some s2 ∧
        s2.metadata.copies = some N ∧
        s2.tokens = mkTokens sid (s.tokens.length + k) ∧
        c2.approved_minters.contains caller = true ∧
        Inv c2 := by
  intro k
  induction k with
  | zero =>
    intro c sid s N h hmin hmid hs hN _
    refine ⟨c, s, mintSeq_zero _ _ _ _ _, hmid, hs, hN, ?_, hmin, h⟩
    simpa using h.tokensShape (sid, s) (mem_of_alookup hs)
  | succ k ih =>
    intro c sid s N h hmin hmid hs hN hk
    have hroom : ∀ M, s.metadata.copies = some M → s.tokens.length < M := by
      intro M hM
      rw [hN] at hM
      cases hM
      omega
    obtain ⟨c1, hok1, hmid1, hs1, hmin1, hinv1⟩ :=
      nft_mint_step h hd ha hmin hmid hs hroom
    have hlen1 : ({ s with
        tokens := s.tokens ++ [tokenIdStr sid (s.tokens.length + 1)] }
          : Series).tokens.length = s.tokens.length + 1 := by
      simp
    obtain ⟨c2, s2, hseq, hmid2, hs2, hN2, htok2, hmin2, hinv2⟩ :=
      ih c1 sid _ N hinv1 (by rw [hmin1]; exact hmin) hmid1 hs1 hN
        (by rw [hlen1]; omega)
    refine ⟨c2, s2, ?_, hmid2, hs2, hN2, ?_, hmin2, hinv2⟩
    · rw [mintSeq_succ, hok1]
      exact hseq
    · rw [htok2, hlen1]
      congr 1
      omega

theorem reachable_stateAdmin : Reachable stateAdmin :=
  Reachable.step _ _ Reachable.init

theorem reachable_stateOne : Reachable stateOne :=
  Reachable.step _ _ reachable_stateAdmin

theorem reachable_stateTwo : Reachable stateTwo :=
  Reachable.step _ _ reachable_stateOne

theorem reachable_stateMinted : Reachable stateMinted :=
  Reachable.step _ _ reachable_stateOne

/-! ## The claims -/

/-- C1: for a reachable state holding a series with `copies = N` and no
copies yet issued, a mint succeeds only while the issued count is strictly
below N: each of the first N sequential mints succeeds — after the k-th the
issued identifiers are exactly "sid:1" … "sid:k", gapless and without
reuse — and every attempt beyond the N-th (in particular the (N+1)-th)
fails with `SupplyExhausted`. -/
theorem claim_C1 {c : Contract} (hre : Reachable c)
    {caller receiver_id : String} {kp : KeypomArgs} {mint_id sid N : Nat}
    {s : Series}
    (hd : kp.drop_id_field = some "mint_id")
    (ha : kp.account_id_field = some "receiver_id")
    (hmin : c.approved_minters.contains caller = true)
    (hmid : alookup c.series_id_by_mint_id mint_id = some sid)
    (hs : alookup c.series_by_id sid = some s)
    (hN : s.metadata.copies = some N)
    (hzero : s.tokens = []) :
    (∀ k, k ≤ N → ∃ c2 s2,
        mintSeq caller mint_id receiver_id kp k c = .ok c2 ∧
        alookup c2.series_by_id sid = some s2 ∧
        s2.tokens = mkTokens sid k) ∧
    (∀ k, N < k → mintSeq caller mint_id receiver_id kp k c
      = .error Err.SupplyExhausted) := by
  have hinv := inv_reachable hre
  have hlen : s.tokens.length = 0 := by rw [hzero]; rfl
  have hN1 : mintSeq caller mint_id receiver_id kp (N + 1) c
      = .error Err.SupplyExhausted := by
    obtain ⟨c2, s2, hseq, hmid2, hs2, hN2, htok, hmin2, hinv2⟩ :=
      mintSeq_ok hd ha N c sid s N hinv hmin hmid hs hN (by omega)
    rw [mintSeq_add caller mint_id receiver_id kp N 1 c, hseq]
    show mintSeq caller mint_id receiver_id kp 1 c2 = .error Err.SupplyExhausted
    have hfull : ¬ s2.tokens.length < N := by
      rw [htok, mkTokens_length]
      omega
    have herr := @nft_mint_supply_exhausted c2 caller mint_id receiver_id kp
      sid s2 N hd ha hmin2 hmid2 hs2 hN2 hfull
    rw [mintSeq_succ, herr]
  constructor
  · intro k hk
    obtain ⟨c2, s2, hseq, hmid2, hs2, hN2, htok, hmin2, hinv2⟩ :=
      mintSeq_ok hd ha k c sid s N hinv hmin hmid hs hN (by omega)
    refine ⟨c2, s2, hseq, hs2, ?_⟩
    rwa [hlen, Nat.zero_add] at htok
  · intro k hk
    rw [show k = (N + 1) + (k - (N + 1)) from by omega]
    rw [mintSeq_add caller mint_id receiver_id kp (N + 1) (k - (N + 1)) c, hN1]

/-- C1 witness: the scenario series has `copies = 2`; two mints succeed with
identifiers "1:1", "1:2" and the third fails with `SupplyExhausted`. -/
theorem claim_C1_witness :
    (∀ k, k ≤ 2 → ∃ c2 s2,
        mintSeq "mina" 1 "bob" kpGood k stateOne = .ok c2 ∧
        alookup c2.series_by_id 1 = some s2 ∧
        s2.tokens = mkTokens 1 k) ∧
    (∀ k, 2 < k → mintSeq "mina" 1 "bob" kpGood k stateOne
      = .error Err.SupplyExhausted) :=
  claim_C1 reachable_stateOne rfl rfl rfl rfl rfl rfl rfl

/-- C2: for every series stored in `series_by_id` whose `metadata.copies` is
`some cp`, the invariant `tokens.length ≤ cp` holds in every state reachable
by any sequence of `create_series`, `nft_mint` and `update_mint_id` calls
(each operation preserves it, see `inv_applyOp`). -/
theorem claim_C2 {c : Contract} (hre : Reachable c) {sid : Nat} {s : Series}
    {cp : Nat} (hs : alookup c.series_by_id sid = some s)
    (hcp : s.metadata.copies = some cp) : s.tokens.length ≤ cp :=
  (inv_reachable hre).copiesBound (sid, s) (mem_of_alookup hs) cp hcp

/-- C2 witness: the bound, evaluated after one mint in the concrete
scenario. -/
theorem claim_C2_witness :
    ∃ s, alookup stateMinted.series_by_id 1 = some s ∧ s.tokens.length ≤ 2 := by
  have hs : alookup stateMinted.series_by_id 1
      = some { mint_id := 1, metadata := mdTwo, royalty := none,
               tokens := [tokenIdStr 1 1], owner_id := "alice" } := rfl
  exact ⟨_, hs, claim_C2 reachable_stateMinted hs rfl⟩

/-- C3: a successful `create_series` by an approved creator appends the new
series under internal id (count of existing series) + 1; the external mint id
defaults to that internal id when none is supplied and is the supplied value
otherwise; immediately afterwards the mapping sends that mint id to the new
internal id, and it is the only entry pointing at it. -/
theorem claim_C3 {c c2 : Contract} (hre : Reachable c) {caller : String}
    {mid : Option Nat} {md : TokenMetadata} {roy : Option (List (String × Nat))}
    (hok : create_series c caller mid md roy = .ok c2) :
    c2.series_by_id = c.series_by_id ++
      [(c.series_by_id.length + 1,
        { mint_id := finalMintId c mid, metadata := md, royalty := roy,
          tokens := [], owner_id := caller })] ∧
    (mid = none → finalMintId c mid = c.series_by_id.length + 1) ∧
    (∀ m, mid = some m → finalMintId c mid = m) ∧
    alookup c2.series_id_by_mint_id (finalMintId c mid)
      = some (c.series_by_id.length + 1) ∧
    (∀ m2, alookup c2.series_id_by_mint_id m2
        = some (c.series_by_id.length + 1) → m2 = finalMintId c mid) := by
  have h := inv_reachable hre
  cases happ : is_approved_creator c caller with
  | false => rw [create_series_unauthorized happ] at hok; cases hok
  | true =>
    cases hfm : alookup c.series_id_by_mint_id (finalMintId c mid) with
    | some w => rw [create_series_dup_mint happ hfm] at hok; cases hok
    | none =>
      have hsid := fresh_series_id h
      rw [create_series_ok happ hfm hsid] at hok
      cases hok
      refine ⟨rfl, ?_, ?_, ?_, ?_⟩
      · intro hmide
        rw [hmide]
        rfl
      · intro m hmide
        rw [hmide]
        rfl
      · rw [alookup_append_singleton _ hfm]
        simp
      · intro m2 hm2
        rw [alookup_append_singleton _ hfm] at hm2
        by_cases hm2e : m2 = finalMintId c mid
        · exact hm2e
        · rw [if_neg hm2e] at hm2
          have := (mint_value_le h hm2).2
          omega

/-- C3 witness: creating the scenario's first series allocates internal id 1,
defaults the mint id to 1, and the mapping entry 1 → 1 is the only one. -/
theorem claim_C3_witness :
    stateOne.series_by_id = stateAdmin.series_by_id ++
      [(stateAdmin.series_by_id.length + 1,
        { mint_id := finalMintId stateAdmin none, metadata := mdTwo,
          royalty := none, tokens := [], owner_id := "alice" })] ∧
    ((none : Option Nat) = none
      → finalMintId stateAdmin none = stateAdmin.series_by_id.length + 1) ∧
    (∀ m, (none : Option Nat) = some m → finalMintId stateAdmin none = m) ∧
    alookup stateOne.series_id_by_mint_id (finalMintId stateAdmin none)
      = some (stateAdmin.series_by_id.length + 1) ∧
    (∀ m2, alookup stateOne.series_id_by_mint_id m2
        = some (stateAdmin.series_by_id.length + 1)
      → m2 = finalMintId stateAdmin none) :=
  claim_C3 reachable_stateAdmin rfl

/-- C4: calling `create_series` with an explicit mint id that is already
mapped fails with `DuplicateMintId`, and no state change survives the failing
call: the previously created series, its mapping entry and the series count
are exactly as before. -/
theorem claim_C4 {c : Contract} {caller : String} {m w : Nat}
    {md : TokenMetadata} {roy : Option (List (String × Nat))}
    (happ : is_approved_creator c caller = true)
    (hm : alookup c.series_id_by_mint_id m = some w) :
    create_series c caller (some m) md roy = .error Err.DuplicateMintId ∧
    applyOp c (.create caller (some m) md roy) = c := by
  have herr : create_series c caller (some m) md roy
      = .error Err.DuplicateMintId := create_series_dup_mint happ (by exact hm)
  exact ⟨herr, by simp [applyOp, exec, herr]⟩

/-- C4 witness: recreating mint id 1 on the one-series scenario state fails
with `DuplicateMintId` and leaves the state intact. -/
theorem claim_C4_witness :
    create_series stateOne "alice" (some 1) mdTwo none
      = .error Err.DuplicateMintId ∧
    applyOp stateOne (.create "alice" (some 1) mdTwo none) = stateOne :=
  claim_C4 rfl rfl

/-- C5 (amended): `update_mint_id(old, new)` called by an account other than
the owner of the series resolved by `old` fails with `Unauthorized` and no
write survives the call; it fails with `UnknownMintId` when `old` is
unmapped; it fails with `DuplicateMintId` when `new` is already mapped and
differs from `old` (when `new = old` the call succeeds, see C9); called by
the owner when `old` resolves and `new` is unused, it unmaps `old`, maps
`new` to the series' internal id, and sets the series' `mint_id` to `new`. -/
theorem claim_C5 {c : Contract} {caller : String} {old_mint_id new_mint_id : Nat} :
    (∀ sid s, alookup c.series_id_by_mint_id old_mint_id = some sid →
      alookup c.series_by_id sid = some s → s.owner_id ≠ caller →
      update_mint_id c caller old_mint_id new_mint_id
        = .error Err.Unauthorized ∧
      applyOp c (.update caller old_mint_id new_mint_id) = c) ∧
    (alookup c.series_id_by_mint_id old_mint_id = none →
      update_mint_id c caller old_mint_id new_mint_id
        = .error Err.UnknownMintId) ∧
    (∀ sid s w, alookup c.series_id_by_mint_id old_mint_id = some sid →
      alookup c.series_by_id sid = some s → s.owner_id = caller →
      new_mint_id ≠ old_mint_id →
      alookup c.series_id_by_mint_id new_mint_id = some w →
      update_mint_id c caller old_mint_id new_mint_id
        = .error Err.DuplicateMintId) ∧
    (∀ sid s, alookup c.series_id_by_mint_id old_mint_id = some sid →
      alookup c.series_by_id sid = some s → s.owner_id = caller →
      alookup c.series_id_by_mint_id new_mint_id = none →
      ∃ c2, update_mint_id c caller old_mint_id new_mint_id = .ok c2 ∧
        alookup c2.series_id_by_mint_id old_mint_id = none ∧
        alookup c2.series_id_by_mint_id new_mint_id = some sid ∧
        ∃ s2, alookup c2.series_by_id sid = some s2 ∧
          s2.mint_id = new_mint_id) := by
  refine ⟨?_, ?_, ?_, ?_⟩
  · intro sid s hold hs hown
    have herr := @update_mint_id_unauthorized c caller old_mint_id new_mint_id
      sid s hold hs hown
    exact ⟨herr, by simp [applyOp, exec, herr]⟩
  · intro hold
    exact update_mint_id_unknown hold
  · intro sid s w hold hs hown hne hnew
    exact update_mint_id_dup hold hs hown hne hnew
  · intro sid s hold hs hown hnew
    have hone : ¬ old_mint_id = new_mint_id := by
      intro he
      rw [he, hnew] at hold
      cases hold
    have hok := update_mint_id_ok hold hs hown (Or.inr hnew)
    have hq : alookup
        (c.series_id_by_mint_id.filter (fun p => !decide (p.1 = old_mint_id)))
        new_mint_id = none := by
      rw [alookup_filter_ne, if_neg (fun he => hone he.symm), hnew]
    refine ⟨_, hok, ?_, ?_, ?_⟩
    · rw [alookup_append_singleton _ hq, if_neg hone, alookup_filter_ne,
        if_pos rfl]
    · rw [alookup_append_singleton _ hq, if_pos rfl]
    · refine ⟨{ s with mint_id := new_mint_id }, ?_, rfl⟩
      rw [alookup_areplace, if_pos rfl, hs]
      rfl

/-- C5 counterexample to the claim as stated: in the concrete scenario state,
mint id 1 resolves to the caller's own series, the new id 1 is already
mapped, yet `update_mint_id(1, 1)` succeeds instead of failing with
`DuplicateMintId` (the old entry is removed before the new one is
inserted). -/
theorem claim_C5_counterexample :
    alookup stateOne.series_id_by_mint_id 1 = some 1 ∧
    (alookup stateOne.series_by_id 1).map Series.owner_id = some "alice" ∧
    update_mint_id stateOne "alice" 1 1 ≠ .error Err.DuplicateMintId := by
  decide

/-- C5 witness: the four branches exercised on concrete states: a non-owner
call, an unmapped old id, a duplicate new id (two-series state), and a
successful remap 1 → 5. -/
theorem claim_C5_witness :
    (update_mint_id stateOne "eve" 1 5 = .error Err.Unauthorized ∧
      applyOp stateOne (.update "eve" 1 5) = stateOne) ∧
    update_mint_id stateOne "alice" 7 5 = .error Err.UnknownMintId ∧
    update_mint_id stateTwo "alice" 1 2 = .error Err.DuplicateMintId ∧
    (∃ c2, update_mint_id stateOne "alice" 1 5 = .ok c2 ∧
      alookup c2.series_id_by_mint_id 1 = none ∧
      alookup c2.series_id_by_mint_id 5 = some 1 ∧
      ∃ s2, alookup c2.series_by_id 1 = some s2 ∧ s2.mint_id = 5) :=
  ⟨(claim_C5).1 1 seriesOneRec rfl rfl (by decide),
   (claim_C5).2.1 rfl,
   (claim_C5).2.2.1 1 seriesOneRec 2 rfl rfl rfl (by decide) rfl,
   (claim_C5).2.2.2 1 seriesOneRec rfl rfl rfl rfl⟩

/-- C6: an integrity payload whose drop-id field is not literally "mint_id"
or whose account-id field is not literally "receiver_id" (including a missing
field) makes `nft_mint` fail with the malformed-payload error and perform no
state mutation. -/
theorem claim_C6 {c : Contract} {caller : String} {mint_id : Nat}
    {receiver_id : String} {kp : KeypomArgs}
    (h : kp.drop_id_field ≠ some "mint_id"
      ∨ kp.account_id_field ≠ some "receiver_id") :
    nft_mint c caller mint_id receiver_id kp
      = .error Err.MalformedIntegrityPayload ∧
    applyOp c (.mint caller mint_id receiver_id kp) = c := by
  have herr := @nft_mint_malformed c caller mint_id receiver_id kp h
  exact ⟨herr, by simp [applyOp, exec, herr]⟩

/-- C6 witness: the payload declaring drop-id field "wrong_name" aborts the
mint and leaves the scenario state unchanged. -/
theorem claim_C6_witness :
    nft_mint stateOne "mina" 1 "bob"
        { account_id_field := some "receiver_id",
          drop_id_field := some "wrong_name", key_id_field := none }
      = .error Err.MalformedIntegrityPayload ∧
    applyOp stateOne (.mint "mina" 1 "bob"
        { account_id_field := some "receiver_id",
          drop_id_field := some "wrong_name", key_id_field := none })
      = stateOne :=
  claim_C6 (Or.inl (by decide))

/-- C7: every successful `nft_mint` persists a `Token` record keyed by the
newly derived token id whose `series_id` is the resolved internal series id,
whose owner is the supplied receiver, with an empty approvals map and
`next_approval_id = 0`; it appends the token to the receiver's ownership
index and emits exactly one mint event (standard name, spec version, the
receiver as owner, exactly the one new token id, no memo). -/
theorem claim_C7 {c c2 : Contract} (hre : Reachable c) {caller : String}
    {mint_id : Nat} {receiver_id : String} {kp : KeypomArgs}
    (hok : nft_mint c caller mint_id receiver_id kp = .ok c2) :
    ∃ sid s, alookup c.series_id_by_mint_id mint_id = some sid ∧
      alookup c.series_by_id sid = some s ∧
      alookup c2.tokens_by_id (tokenIdStr sid (s.tokens.length + 1))
        = some { series_id := sid, owner_id := receiver_id,
                 approved_account_ids := [], next_approval_id := 0 } ∧
      c2.tokens_per_owner
        = addTokenToOwner c.tokens_per_owner receiver_id
            (tokenIdStr sid (s.tokens.length + 1)) ∧
      c2.logs = c.logs ++
        [{ standard := NFT_STANDARD_NAME, version := NFT_METADATA_SPEC,
           event := [{ owner_id := receiver_id,
                       token_ids := [tokenIdStr sid (s.tokens.length + 1)],
                       memo := none }] }] := by
  have h := inv_reachable hre
  by_cases hd : kp.drop_id_field = some "mint_id"
  case neg =>
    rw [@nft_mint_malformed c caller mint_id receiver_id kp (Or.inl hd)] at hok
    cases hok
  case pos =>
  by_cases ha : kp.account_id_field = some "receiver_id"
  case neg =>
    rw [@nft_mint_malformed c caller mint_id receiver_id kp (Or.inr ha)] at hok
    cases hok
  case pos =>
  cases hmin : c.approved_minters.contains caller with
  | false => rw [nft_mint_unauthorized hd ha hmin] at hok; cases hok
  | true =>
  cases hmid : alookup c.series_id_by_mint_id mint_id with
  | none => rw [nft_mint_unknown_mint hd ha hmin hmid] at hok; cases hok
  | some sid =>
  obtain ⟨s, hs, hsmint⟩ := series_of_mint_lookup h hmid
  by_cases hcap : ∀ N, s.metadata.copies = some N → s.tokens.length < N
  case neg =>
    push_neg at hcap
    obtain ⟨N, hN, hlen⟩ := hcap
    rw [nft_mint_supply_exhausted hd ha hmin hmid hs hN (by omega)] at hok
    cases hok
  case pos =>
  have hfresh := fresh_token_id h hs
  rw [nft_mint_ok hd ha hmin hmid hs hcap (fresh_token_not_issued h hs)
    hfresh] at hok
  cases hok
  refine ⟨sid, s, rfl, hs, ?_, rfl, rfl⟩
  rw [alookup_append_singleton _ hfresh, if_pos rfl]

/-- C7 witness: the first mint in the concrete scenario persists the token
"1:1" owned by bob with empty approvals and logs exactly one mint event. -/
theorem claim_C7_witness :
    ∃ sid s, alookup stateOne.series_id_by_mint_id 1 = some sid ∧
      alookup stateOne.series_by_id sid = some s ∧
      alookup stateMinted.tokens_by_id (tokenIdStr sid (s.tokens.length + 1))
        = some { series_id := sid, owner_id := "bob",
                 approved_account_ids := [], next_approval_id := 0 } ∧
      stateMinted.tokens_per_owner
        = addTokenToOwner stateOne.tokens_per_owner "bob"
            (tokenIdStr sid (s.tokens.length + 1)) ∧
      stateMinted.logs = stateOne.logs ++
        [{ standard := NFT_STANDARD_NAME, version := NFT_METADATA_SPEC,
           event := [{ owner_id := "bob",
                       token_ids := [tokenIdStr sid (s.tokens.length + 1)],
                       memo := none }] }] :=
  @claim_C7 stateOne stateMinted reachable_stateOne "mina" 1 "bob" kpGood rfl

/-- C8: the defensive duplicate checks are dead from every reachable state:
`create_series` never fails with `DuplicateSeriesId` (internal ids are
allocated monotonically as count+1 and never removed) and `nft_mint` never
fails with `DuplicateTokenId` (the derived ordinal is fresh for the
series). -/
theorem claim_C8 {c : Contract} (hre : Reachable c) :
    (∀ caller mid md roy,
      create_series c caller mid md roy ≠ .error Err.DuplicateSeriesId) ∧
    (∀ caller mint_id receiver_id kp,
      nft_mint c caller mint_id receiver_id kp
        ≠ .error Err.DuplicateTokenId) := by
  have h := inv_reachable hre
  constructor
  · intro caller mid md roy
    cases happ : is_approved_creator c caller with
    | false => rw [create_series_unauthorized happ]; simp
    | true =>
      cases hfm : alookup c.series_id_by_mint_id (finalMintId c mid) with
      | some w => rw [create_series_dup_mint happ hfm]; simp
      | none =>
        rw [create_series_ok happ hfm (fresh_series_id h)]
        simp
  · intro caller mint_id receiver_id kp
    by_cases hd : kp.drop_id_field = some "mint_id"
    case neg =>
      rw [@nft_mint_malformed c caller mint_id receiver_id kp (Or.inl hd)]
      simp
    case pos =>
    by_cases ha : kp.account_id_field = some "receiver_id"
    case neg =>
      rw [@nft_mint_malformed c caller mint_id receiver_id kp (Or.inr ha)]
      simp
    case pos =>
    cases hmin : c.approved_minters.contains caller with
    | false => rw [nft_mint_unauthorized hd ha hmin]; simp
    | true =>
    cases hmid : alookup c.series_id_by_mint_id mint_id with
    | none => rw [nft_mint_unknown_mint hd ha hmin hmid]; simp
    | some sid =>
    obtain ⟨s, hs, hsmint⟩ := series_of_mint_lookup h hmid
    by_cases hcap : ∀ N, s.metadata.copies = some N → s.tokens.length < N
    case neg =>
      push_neg at hcap
      obtain ⟨N, hN, hlen⟩ := hcap
      rw [nft_mint_supply_exhausted hd ha hmin hmid hs hN (by omega)]
      simp
    case pos =>
      rw [@nft_mint_ok c caller mint_id receiver_id kp sid s hd ha hmin hmid
        hs hcap (fresh_token_not_issued h hs) (fresh_token_id h hs)]
      simp

/-- C8 witness: on the concrete one-series state neither defensive branch
fires. -/
theorem claim_C8_witness :
    create_series stateOne "alice" none mdTwo none
      ≠ .error Err.DuplicateSeriesId ∧
    nft_mint stateOne "mina" 1 "bob" kpGood ≠ .error Err.DuplicateTokenId :=
  ⟨(claim_C8 reachable_stateOne).1 "alice" none mdTwo none,
   (claim_C8 reachable_stateOne).2 "mina" 1 "bob" kpGood⟩

/-- C9: when mint id x resolves to a series owned by the caller,
`update_mint_id(x, x)` succeeds (no `DuplicateMintId`: the old entry is
removed before the new one is inserted) and leaves the whole state unchanged:
the mapping still sends x to the same internal id, the series (including its
`mint_id` field) and every other component are exactly as before. -/
theorem claim_C9 {c : Contract} (hre : Reachable c) {caller : String}
    {x sid : Nat} {s : Series}
    (hx : alookup c.series_id_by_mint_id x = some sid)
    (hs : alookup c.series_by_id sid = some s)
    (hown : s.owner_id = caller) :
    ∃ c2, update_mint_id c caller x x = .ok c2 ∧
      (∀ k, alookup c2.series_id_by_mint_id k
        = alookup c.series_id_by_mint_id k) ∧
      c2.series_id_by_mint_id.length = c.series_id_by_mint_id.length ∧
      c2.series_by_id = c.series_by_id ∧
      c2.tokens_by_id = c.tokens_by_id ∧
      c2.tokens_per_owner = c.tokens_per_owner ∧
      c2.logs = c.logs ∧
      c2.approved_creators = c.approved_creators ∧
      c2.approved_minters = c.approved_minters := by
  have h := inv_reachable hre
  have hsm : s.mint_id = x := by
    obtain ⟨s2, hs2, hm2⟩ := series_of_mint_lookup h hx
    rw [hs] at hs2
    cases hs2
    exact hm2
  have hok := update_mint_id_ok hx hs hown (Or.inl rfl)
  refine ⟨_, hok, ?_, ?_, ?_, rfl, rfl, rfl, rfl, rfl⟩
  · intro k
    have hq : alookup
        (c.series_id_by_mint_id.filter (fun p => !decide (p.1 = x))) x
        = none := by
      rw [alookup_filter_ne, if_pos rfl]
    rw [alookup_append_singleton k hq, alookup_filter_ne]
    by_cases hk : k = x
    · rw [if_pos hk, hk, hx]
    · rw [if_neg hk, if_neg hk]
  · rw [List.length_append, List.length_cons, List.length_nil]
    have := length_filter_ne h.nodupMint hx
    omega
  · show areplace c.series_by_id sid { s with mint_id := x } = c.series_by_id
    rw [show ({ s with mint_id := x } : Series) = s from by rw [← hsm]]
    exact areplace_self h.nodupSeries hs

/-- C9 witness: the self-remap `update_mint_id(1, 1)` on the scenario state
succeeds and changes nothing. -/
theorem claim_C9_witness :
    ∃ c2, update_mint_id stateOne "alice" 1 1 = .ok c2 ∧
      (∀ k, alookup c2.series_id_by_mint_id k
        = alookup stateOne.series_id_by_mint_id k) ∧
      c2.series_id_by_mint_id.length
        = stateOne.series_id_by_mint_id.length ∧
      c2.series_by_id = stateOne.series_by_id ∧
      c2.tokens_by_id = stateOne.tokens_by_id ∧
      c2.tokens_per_owner = stateOne.tokens_per_owner ∧
      c2.logs = stateOne.logs ∧
      c2.approved_creators = stateOne.approved_creators ∧
      c2.approved_minters = stateOne.approved_minters :=
  claim_C9 reachable_stateOne rfl rfl rfl

/-- C10: `nft_mint` never inspects the payload's `key_id_field`: two calls
identical except for that field (either may be missing) have identical
outcome, resulting state and emitted events. -/
theorem claim_C10 (c : Contract) (caller : String) (mint_id : Nat)
    (receiver_id : String) (a d k1 k2 : Option String) :
    nft_mint c caller mint_id receiver_id
        { account_id_field := a, drop_id_field := d, key_id_field := k1 }
      = nft_mint c caller mint_id receiver_id
        { account_id_field := a, drop_id_field := d, key_id_field := k2 } ∧
    applyOp c (.mint caller mint_id receiver_id
        { account_id_field := a, drop_id_field := d, key_id_field := k1 })
      = applyOp c (.mint caller mint_id receiver_id
        { account_id_field := a, drop_id_field := d, key_id_field := k2 }) :=
  ⟨rfl, rfl⟩

end NftSeries
